import Mathlib

/-!
Verification development for the PDF outline extractor (`app.py`).

The program is shallowly embedded: spans/lines/blocks/pages become Lean
structures, font sizes are rationals, Python string operations are modelled
on `List Char`, and each Python function becomes a Lean definition with the
same name (camel-cased).  All definitions are executable.
-/

/-! ## Character and string utilities (model of Python `str` operations) -/

/-- Whitespace characters recognised by the Python functions `str.strip`
and `str.split` and by the regex class `\s` (ASCII fragment). -/
def isWS (c : Char) : Bool :=
  c = ' ' || c = '\t' || c = '\n' || c = '\x0d' || c = '\x0b' || c = '\x0c'

/-- Python `str.strip()`: drop trailing whitespace first, then leading. -/
def stripWS (s : List Char) : List Char :=
  List.dropWhile isWS ((List.dropWhile isWS s.reverse).reverse)

/-- Python `str.lower()` (ASCII fragment), one character. -/
def lowerStr (s : List Char) : List Char := s.map Char.toLower

/-- Word splitter core: returns (current word being built, completed words).
Scans from the left; `wordsOf` finishes the pending word. -/
def wordsCore : List Char → List Char × List (List Char)
  | [] => ([], [])
  | c :: rest =>
      let p := wordsCore rest
      if isWS c then ([], if p.1 = [] then p.2 else p.1 :: p.2)
      else (c :: p.1, p.2)

/-- Python `str.split()` with no arguments: split on whitespace runs. -/
def wordsOf (s : List Char) : List (List Char) :=
  let p := wordsCore s
  if p.1 = [] then p.2 else p.1 :: p.2

/-- `len(text.split())`. -/
def wordCount (s : List Char) : Nat := (wordsOf s).length

/-- Join words with single spaces. -/
def joinWords : List (List Char) → List Char
  | [] => []
  | [w] => w
  | w :: ws => w ++ ' ' :: joinWords ws

/-- `clean_text`: strip, then collapse each whitespace run to one space —
equivalently, the whitespace-separated words joined by single spaces. -/
def cleanText (s : List Char) : List Char := joinWords (wordsOf s)

/-- Does `pat` occur as a prefix of `s`? -/
def startsL : List Char → List Char → Bool
  | [], _ => true
  | _ :: _, [] => false
  | c :: p, d :: s => c = d && startsL p s

/-- Python `pat in s` substring test. -/
def containsSub (pat : List Char) : List Char → Bool
  | [] => startsL pat []
  | c :: t => startsL pat (c :: t) || containsSub pat (t : List Char)

/-- Python `round` to an integer (model: round half up), computable form. -/
def pyRoundZ (q : ℚ) : ℤ := (q + 1/2).floor

theorem pyRoundZ_eq (q : ℚ) : pyRoundZ q = ⌊q + 1/2⌋ := by
  rw [pyRoundZ, Rat.floor_def', Rat.floor_def]

/-- Python `round(x, 1)` (model: round half up to one decimal). -/
def round1 (q : ℚ) : ℚ := ((pyRoundZ (q * 10) : ℤ) : ℚ) / 10

/-- Concatenation of `f` over a list (`List` monad bind, spelled out). -/
def concatMap (f : α → List β) : List α → List β
  | [] => []
  | a :: l => f a ++ concatMap f l

theorem mem_concatMap {f : α → List β} {l : List α} {b : β} :
    b ∈ concatMap f l ↔ ∃ a ∈ l, b ∈ f a := by
  induction l with
  | nil => simp [concatMap]
  | cons a l ih => simp [concatMap, ih]

/-! ## String literals used by the program -/

def boldTok : List Char := "bold".toList
def pageTok : List Char := "page".toList
def pageSpTok : List Char := "page ".toList
def copyrightTok : List Char := "copyright".toList
def versionTok : List Char := "version".toList
def untitledTok : List Char := "Untitled".toList
def errorTok : List Char := "Error".toList
def emptyDocTok : List Char := "Empty Document".toList

/-! ## Regex fragments used by the program, as explicit scanners -/

/-- Consume a nonempty run of digits (`\d+`), returning the rest. -/
def eatDigits (t : List Char) : Option (List Char) :=
  if t.takeWhile Char.isDigit = [] then none else some (t.dropWhile Char.isDigit)

/-- Consume one expected character. -/
def eatChar (c : Char) : List Char → Option (List Char)
  | d :: r => if d = c then some r else none
  | [] => none

/-- Does the text start with a whitespace character (`\s`)? -/
def startsWS : List Char → Bool
  | c :: _ => isWS c
  | [] => false

/-- Does the text start with a digit? -/
def startsDigit : List Char → Bool
  | c :: _ => c.isDigit
  | [] => false

def optWS : Option (List Char) → Bool
  | some r => startsWS r
  | none => false

/-- Consume `\d+\.`. -/
def eatNumDot (t : List Char) : Option (List Char) := (eatDigits t).bind (eatChar '.')

/-- The regex `^\d+\.\s` anchored at the start. -/
def matchNum1 (t : List Char) : Bool := optWS (eatNumDot t)

/-- The regex `^\d+\.\d+\s` anchored at the start. -/
def matchNum2 (t : List Char) : Bool := optWS ((eatNumDot t).bind eatDigits)

/-- The regex `^\d+\.\d+\.\d+\s` anchored at the start. -/
def matchNum3 (t : List Char) : Bool :=
  optWS (((eatNumDot t).bind (fun r => eatNumDot r)).bind eatDigits)

/-- The regex matching one or two digits followed by a dot, at the start. -/
def matchFormPrefix : List Char → Bool
  | a :: '.' :: _ => a.isDigit
  | a :: b :: '.' :: _ => a.isDigit && b.isDigit
  | _ => false

/-- The regex `^[\d\s.-slash]+$`: text made entirely of digits, whitespace,
dots, dashes and slashes. -/
def isNumPunct (t : List Char) : Bool :=
  decide (t ≠ []) && t.all (fun c => c.isDigit || isWS c || c = '.' || c = '-' || c = '/')

/-- The `skip_patterns` list of `is_likely_heading`, applied to lowercased text. -/
def skipPattern (lt : List Char) : Bool :=
  (decide (1 ≤ lt.length) && decide (lt.length ≤ 3) && lt.all Char.isDigit)
  || (startsL pageSpTok lt && startsDigit (lt.drop 5))
  || (decide (lt.length = 4) && lt.all Char.isDigit)
  || (match lt with | c :: rest => c = '©' && containsSub copyrightTok rest | [] => false)
  || (startsL versionTok lt && (lt.drop 7).any Char.isDigit)

/-- Python `str.isupper()` (ASCII model): some cased character, and no
lowercase character. -/
def pyIsUpper (t : List Char) : Bool := t.any Char.isAlpha && t.all (fun c => !c.isLower)

/-- State machine for Python `str.istitle()`: `prev` = previous character was
cased, `seen` = some cased character was seen. -/
def istitleAux : List Char → Bool → Bool → Bool
  | [], _, seen => seen
  | c :: rest, prev, seen =>
    if c.isUpper then !prev && istitleAux rest true true
    else if c.isLower then prev && istitleAux rest true true
    else istitleAux rest false seen

/-- Python `str.istitle()` (ASCII model). -/
def pyIsTitle (t : List Char) : Bool := istitleAux t false false

/-- Does the text end with a colon? -/
def endsColon (t : List Char) : Bool :=
  match t.getLast? with | some c => c = ':' | none => false

/-! ## Data model -/

/-- A text span from the PDF layout parser: text, font name, style flags,
font size and the left x-coordinate of its bounding box (the only bbox
component the program reads). -/
structure Span where
  text : List Char
  font : List Char
  flags : Nat
  size : ℚ
  x0 : ℚ
deriving DecidableEq

/-- A line is a sequence of spans. -/
structure Line where
  spans : List Span
deriving DecidableEq

/-- A block carries a list of lines (a block without a `"lines"` key is
modelled as a block with no lines — both contribute nothing). -/
abbrev Block := List Line
abbrev Page := List Block
abbrev Doc := List Page

inductive HLevel where
  | H1
  | H2
  | H3
deriving DecidableEq

/-- One outline entry: `{"level", "text", "page"}`. -/
structure Heading where
  level : HLevel
  text : List Char
  page : Nat
deriving DecidableEq

/-- The non-empty font-threshold dictionary; `none` models the empty dict. -/
structure Thresholds where
  body : ℚ
  H1 : ℚ
  H2 : ℚ
  H3 : ℚ
deriving DecidableEq

structure TitleCand where
  text : List Char
  size : ℚ
  page : Nat
  length : Nat
deriving DecidableEq

structure ExtractionResult where
  title : List Char
  outline : List Heading
deriving DecidableEq

/-- `thresholds.get("body", 12)` etc. on the possibly-empty dict. -/
def thBody : Option Thresholds → ℚ
  | some t => t.body
  | none => 12

def thH1 : Option Thresholds → ℚ
  | some t => t.H1
  | none => 16

def thH2 : Option Thresholds → ℚ
  | some t => t.H2
  | none => 14

def thH3 : Option Thresholds → ℚ
  | some t => t.H3
  | none => 12

/-! ## Per-line derived data -/

/-- The spans whose text is non-whitespace (`if span["text"].strip():`). -/
def liveSpans (l : Line) : List Span := l.spans.filter (fun sp => ¬(stripWS sp.text = []))

/-- Concatenated raw text of the live spans (`line_text += span["text"]`). -/
def rawOf (l : Line) : List Char := concatMap Span.text (liveSpans l)

/-- Sizes of the live spans (`font_sizes.append(span["size"])`). -/
def sizesOf (l : Line) : List ℚ := (liveSpans l).map Span.size

/-- Arithmetic mean of the sizes of the live spans. -/
def avgOf (l : Line) : ℚ := (sizesOf l).sum / ((sizesOf l).length : ℚ)

/-! ## Classifier functions of the program -/

/-- `is_bold`: font name contains "bold" case-insensitively, or flag bit 2. -/
def isBold (sp : Span) : Bool :=
  containsSub boldTok (lowerStr sp.font) || decide (sp.flags &&& 2 ≠ 0)

/-- `detect_heading_level_by_number`. -/
def detectHeadingLevelByNumber (text : List Char) : Option HLevel :=
  if matchNum1 text = true ∧ wordCount text ≤ 6 then some HLevel.H1
  else if matchNum2 text = true ∧ wordCount text ≤ 8 then some HLevel.H2
  else if matchNum3 text = true ∧ wordCount text ≤ 10 then some HLevel.H3
  else none

/-- `is_likely_heading`. -/
def isLikelyHeading (text0 : List Char) (fontSize avgFontSize : ℚ) : Bool :=
  let text := cleanText text0
  if text.length < 2 || decide (200 < text.length) then false
  else if isNumPunct text then false
  else if skipPattern (lowerStr text) then false
  else
    decide (fontSize ≥ avgFontSize * 105 / 100) || pyIsUpper text || pyIsTitle text
      || endsColon text || decide (wordCount text ≤ 10)

/-- `classify_heading_level`. -/
def classifyHeadingLevel (text : List Char) (fontSize : ℚ) (th : Option Thresholds) :
    Option HLevel :=
  match detectHeadingLevelByNumber text with
  | some l => some l
  | none =>
    if fontSize ≥ thH1 th then some HLevel.H1
    else if fontSize ≥ thH2 th then some HLevel.H2
    else if fontSize ≥ thH3 th then some HLevel.H3
    else none

/-- The rounded left x-positions of the non-whitespace spans of a line. -/
def xPositions (line : Line) : List ℤ := (liveSpans line).map (fun sp => pyRoundZ sp.x0)

/-- `is_table_like` (the unused `text` parameter is dropped). -/
def isTableLike (line : Line) : Bool :=
  if (xPositions line).length < 2 then false
  else
    decide (2 ≤ ((xPositions line).dedup.filter
        (fun p => 2 ≤ (xPositions line).count p)).length)
      || decide (4 ≤ line.spans.length)

/-! ## Font statistics analyzer -/

def spansOf (doc : Doc) : List Span :=
  concatMap (fun p => concatMap (fun b => concatMap Line.spans b) p) doc

def linesOfPage (p : Page) : List Line := concatMap id p

/-- All rounded sizes of non-whitespace spans, in document order. -/
def fontSizes (doc : Doc) : List ℚ :=
  ((spansOf doc).filter (fun sp => ¬(stripWS sp.text = []))).map (fun sp => round1 sp.size)

/-- `sorted_fonts[0][0]`: the size maximising (frequency, size)
lexicographically — the head of the list sorted by descending frequency
then descending size. -/
def pickBody (fs : List ℚ) : ℚ :=
  match fs.dedup with
  | [] => 0
  | h :: t =>
    t.foldl
      (fun b s => if fs.count b < fs.count s ∨ (fs.count b = fs.count s ∧ b < s) then s else b) h

/-- `unique_sizes = sorted(set(font_sizes), reverse=True)`. -/
def uniqueSizes (doc : Doc) : List ℚ :=
  List.insertionSort (fun a b : ℚ => b ≤ a) (fontSizes doc).dedup

/-- `analyze_font_sizes`. -/
def analyzeFontSizes (doc : Doc) : Option Thresholds :=
  if fontSizes doc = [] then none
  else if 4 ≤ (uniqueSizes doc).length then
    some ⟨pickBody (fontSizes doc),
      (uniqueSizes doc).getD 0 0,
      (uniqueSizes doc).getD (min 1 ((uniqueSizes doc).length - 1)) 0,
      (uniqueSizes doc).getD (min 2 ((uniqueSizes doc).length - 1)) 0⟩
  else
    some ⟨pickBody (fontSizes doc),
      pickBody (fontSizes doc) * 135 / 100,
      pickBody (fontSizes doc) * 125 / 100,
      pickBody (fontSizes doc) * 115 / 100⟩

/-! ## Title extractor -/

/-- Body of the title-candidate loop for one line on (1-based) page `pn`. -/
def lineCandidate (pn : Nat) (line : Line) : Option TitleCand :=
  if line.spans = [] then none
  else if cleanText (rawOf line) = [] ∨ sizesOf line = [] then none
  else if 10 < (cleanText (rawOf line)).length ∧ (cleanText (rawOf line)).length < 150
      ∧ 10 < avgOf line ∧ ¬(startsL pageTok (lowerStr (cleanText (rawOf line))) = true) then
    some ⟨cleanText (rawOf line), avgOf line, pn, (cleanText (rawOf line)).length⟩
  else none

def titleCandsFrom : Nat → List Page → List TitleCand
  | _, [] => []
  | pn, p :: rest =>
    concatMap (fun b => (b : Block).filterMap (lineCandidate pn)) p
      ++ titleCandsFrom (pn + 1) rest

/-- Candidates from the first `min(3, len(doc))` pages, 1-based page field. -/
def titleCandidates (doc : Doc) : List TitleCand := titleCandsFrom 1 (doc.take 3)

/-- The sort by descending size then ascending page, followed by taking the
first element: keep the earlier candidate unless a strictly better one
(larger size, or equal size and smaller page) appears. -/
def betterCand (b c : TitleCand) : TitleCand :=
  if b.size < c.size ∨ (b.size = c.size ∧ c.page < b.page) then c else b

/-- `extract_title_from_document`. -/
def extractTitleFromDocument (doc : Doc) : List Char :=
  match titleCandidates doc with
  | [] => untitledTok
  | c :: cs => (cs.foldl betterCand c).text

/-! ## Heading extractor -/

/-- The state of the heading loop: emitted headings and seen normalized keys. -/
abbrev HState := List Heading × List (List Char)

/-- `heading_key = line_text.lower().strip()`. -/
def headingKey (lt : List Char) : List Char := stripWS (lowerStr lt)

/-- The step-4 candidate test: likely heading, or some live span is bold. -/
def headingCandidateTest (line : Line) (avgFontSize : ℚ) : Bool :=
  isLikelyHeading (cleanText (rawOf line)) (avgOf line) avgFontSize
    || (liveSpans line).any isBold

/-- The body of the heading loop for one line of (1-based) page `pn`. -/
def processLine (title : List Char) (th : Option Thresholds) (pn : Nat) (line : Line)
    (st : HState) : HState :=
  if line.spans = [] then st
  else if cleanText (rawOf line) = [] ∨ sizesOf line = [] then st
  else if isTableLike line = true then st
  else if matchFormPrefix (stripWS (cleanText (rawOf line))) = true
      ∧ 5 ≤ wordCount (cleanText (rawOf line)) then st
  else if headingCandidateTest line (thBody th) = false then st
  else if lowerStr (cleanText title) = lowerStr (cleanText (rawOf line)) then st
  else if headingKey (cleanText (rawOf line)) ∈ st.2 then st
  else
    match classifyHeadingLevel (cleanText (rawOf line)) (avgOf line) th with
    | some lvl =>
      (st.1 ++ [⟨lvl, cleanText (rawOf line) ++ [' '], pn - 1⟩],
       st.2 ++ [headingKey (cleanText (rawOf line))])
    | none => st

def processBlock (title : List Char) (th : Option Thresholds) (pn : Nat) (b : Block)
    (st : HState) : HState :=
  b.foldl (fun s l => processLine title th pn l s) st

def processPage (title : List Char) (th : Option Thresholds) (pn : Nat) (p : Page)
    (st : HState) : HState :=
  p.foldl (fun s b => processBlock title th pn b s) st

def extractFrom (title : List Char) (th : Option Thresholds) :
    Nat → List Page → HState → HState
  | _, [], st => st
  | pn, p :: rest, st => extractFrom title th (pn + 1) rest (processPage title th pn p st)

/-- `extract_headings_from_document` (`enumerate(doc, 1)` starts `pn` at 1). -/
def extractHeadingsFromDocument (doc : Doc) (title : List Char) (th : Option Thresholds) :
    List Heading :=
  (extractFrom title th 1 doc ([], [])).1

/-! ## Document orchestrator -/

/-- `extract_outline_from_pdf`: the outcome of opening/parsing the PDF is an
explicit `Except` value; an exception anywhere during parsing is the `error`
case. -/
def extractOutlineFromPdf (parsed : Except (List Char) Doc) : ExtractionResult :=
  match parsed with
  | .error _ => ⟨errorTok, []⟩
  | .ok doc =>
    if doc.length = 0 then ⟨emptyDocTok, []⟩
    else
      let title := extractTitleFromDocument doc
      ⟨title, extractHeadingsFromDocument doc title (analyzeFontSizes doc)⟩

/-- "Normalized" text: lowercased and trimmed. -/
def normText (s : List Char) : List Char := lowerStr (stripWS s)

/-! ## Lemmas about the string utilities -/

/-- A well-formed word list: every word is nonempty and whitespace-free. -/
def WordsWF (ws : List (List Char)) : Prop :=
  ∀ w ∈ ws, w ≠ [] ∧ ∀ c ∈ w, isWS c = false

theorem wordsCore_wf (s : List Char) :
    (∀ c ∈ (wordsCore s).1, isWS c = false) ∧ WordsWF (wordsCore s).2 := by
  induction s with
  | nil => constructor <;> simp [wordsCore, WordsWF]
  | cons c rest ih =>
    obtain ⟨ih1, ih2⟩ := ih
    by_cases h : isWS c
    · refine ⟨by simp [wordsCore, h], ?_⟩
      intro w hw
      simp only [wordsCore, h, if_true] at hw
      by_cases hcur : (wordsCore rest).1 = []
      · rw [if_pos hcur] at hw
        exact ih2 w hw
      · rw [if_neg hcur] at hw
        rcases List.mem_cons.mp hw with rfl | hw
        · exact ⟨hcur, ih1⟩
        · exact ih2 w hw
    · refine ⟨?_, ?_⟩
      · intro d hd
        simp only [wordsCore, h, if_false] at hd
        rcases List.mem_cons.mp hd with rfl | hd
        · simpa using h
        · exact ih1 d hd
      · intro w hw
        simp only [wordsCore, h, if_false] at hw
        exact ih2 w hw

theorem wordsOf_wf (s : List Char) : WordsWF (wordsOf s) := by
  intro w hw
  obtain ⟨h1, h2⟩ := wordsCore_wf s
  simp only [wordsOf] at hw
  by_cases hcur : (wordsCore s).1 = []
  · rw [if_pos hcur] at hw
    exact h2 w hw
  · rw [if_neg hcur] at hw
    rcases List.mem_cons.mp hw with rfl | hw
    · exact ⟨hcur, h1⟩
    · exact h2 w hw

theorem joinWords_head {ws : List (List Char)} (hwf : WordsWF ws) (hne : ws ≠ []) :
    ∃ c t, joinWords ws = c :: t ∧ isWS c = false := by
  match ws with
  | [] => exact absurd rfl hne
  | [w] =>
    obtain ⟨hw1, hw2⟩ := hwf w (by simp)
    match w, hw1 with
    | c :: t, _ => exact ⟨c, t, rfl, hw2 c (by simp)⟩
  | w :: w2 :: rest =>
    obtain ⟨hw1, hw2⟩ := hwf w (by simp)
    match w, hw1 with
    | c :: t, _ => exact ⟨c, t ++ ' ' :: joinWords (w2 :: rest), rfl, hw2 c (by simp)⟩

theorem joinWords_last :
    ∀ {ws : List (List Char)}, WordsWF ws → ws ≠ [] →
      ∃ c t, (joinWords ws).reverse = c :: t ∧ isWS c = false := by
  intro ws
  induction ws with
  | nil => intro _ hne; exact absurd rfl hne
  | cons w ws ih =>
    intro hwf _
    cases ws with
    | nil =>
      obtain ⟨hw1, hw2⟩ := hwf w (by simp)
      have hrev : w.reverse ≠ [] := by simpa using hw1
      match hr : w.reverse, hrev with
      | c :: t, _ =>
        refine ⟨c, t, by simpa [joinWords] using hr, ?_⟩
        have hcw : c ∈ w.reverse := by rw [hr]; simp
        exact hw2 c (by simpa using hcw)
    | cons w2 rest =>
      have hwf2 : WordsWF (w2 :: rest) := fun x hx => hwf x (by simp [hx])
      obtain ⟨c, t, hct, hc⟩ := ih hwf2 (by simp)
      refine ⟨c, t ++ (' ' :: w.reverse : List Char), ?_, hc⟩
      show ((w ++ ' ' :: joinWords (w2 :: rest)).reverse : List Char) = _
      rw [List.reverse_append, List.reverse_cons]
      rw [hct]
      simp

theorem isWS_space : isWS ' ' = true := rfl

theorem dropWhile_of_head {l : List Char} {c : Char} {t : List Char}
    (h : l = c :: t) (hc : isWS c = false) : List.dropWhile isWS l = l := by
  subst h
  simp [List.dropWhile_cons, hc]

/-- The output of `cleanText` has no leading or trailing whitespace. -/
theorem stripWS_cleanText (s : List Char) : stripWS (cleanText s) = cleanText s := by
  by_cases hws : wordsOf s = []
  · simp [cleanText, hws, joinWords, stripWS]
  · have hwf := wordsOf_wf s
    obtain ⟨c, t, hct, hc⟩ := joinWords_head hwf hws
    obtain ⟨c2, t2, hct2, hc2⟩ := joinWords_last hwf hws
    unfold stripWS cleanText
    rw [dropWhile_of_head hct2 hc2]
    rw [List.reverse_reverse]
    exact dropWhile_of_head hct hc

/-- Stripping ignores one appended space. -/
theorem stripWS_append_space (x : List Char) : stripWS (x ++ [' ']) = stripWS x := by
  unfold stripWS
  rw [List.reverse_append]
  simp [List.dropWhile_cons, isWS_space]

theorem stripWS_cleanText_space (s : List Char) :
    stripWS (cleanText s ++ [' ']) = cleanText s := by
  rw [stripWS_append_space, stripWS_cleanText]

theorem wordsCore_append_word {w : List Char} (hw : ∀ c ∈ w, isWS c = false)
    (t : List Char) : wordsCore (w ++ t) = (w ++ (wordsCore t).1, (wordsCore t).2) := by
  induction w with
  | nil => simp
  | cons c w ih =>
    have hc : isWS c = false := hw c (by simp)
    have ih2 := ih (fun d hd => hw d (by simp [hd]))
    simp only [List.cons_append, wordsCore, hc]
    simp [ih2]

theorem wordsCore_space (t : List Char) : wordsCore (' ' :: t) = ([], wordsOf t) := by
  simp [wordsCore, wordsOf, isWS_space]

/-- Splitting the joined words recovers the word list. -/
theorem wordsOf_joinWords :
    ∀ {ws : List (List Char)}, WordsWF ws → wordsOf (joinWords ws) = ws := by
  intro ws
  induction ws with
  | nil => intro _; simp [joinWords, wordsOf, wordsCore]
  | cons w ws ih =>
    intro hwf
    obtain ⟨hw1, hw2⟩ := hwf w (by simp)
    have hwf2 : WordsWF ws := fun x hx => hwf x (by simp [hx])
    cases ws with
    | nil =>
      show wordsOf (joinWords [w]) = [w]
      have hjw : joinWords [w] = w := rfl
      rw [hjw]
      have h := wordsCore_append_word hw2 []
      rw [List.append_nil] at h
      simp [wordsOf, h, wordsCore, hw1]
    | cons w2 rest =>
      have ihr := ih hwf2
      show wordsOf (w ++ ' ' :: joinWords (w2 :: rest)) = w :: w2 :: rest
      have hA := wordsCore_append_word hw2 (' ' :: joinWords (w2 :: rest))
      rw [wordsCore_space (joinWords (w2 :: rest))] at hA
      rw [ihr] at hA
      simp only [List.append_nil] at hA
      simp [wordsOf, hA, hw1]

/-- The function cleanText is idempotent. -/
theorem cleanText_idem (s : List Char) : cleanText (cleanText s) = cleanText s := by
  unfold cleanText
  rw [wordsOf_joinWords (wordsOf_wf s)]

/-! ## Lemmas about the numbered-prefix scanners -/

theorem digit_not_ws {c : Char} (h : c.isDigit = true) : isWS c = false := by
  rcases hw : isWS c with _ | _
  · rfl
  · exfalso
    simp only [isWS, Bool.or_eq_true, decide_eq_true_eq] at hw
    rcases hw with ((((rfl | rfl) | rfl) | rfl) | rfl) | rfl <;> exact absurd h (by decide)

theorem eatDigits_some_head {t r : List Char} (h : eatDigits t = some r) :
    ∃ c t0, t = c :: t0 ∧ c.isDigit = true := by
  unfold eatDigits at h
  by_cases h0 : t.takeWhile Char.isDigit = []
  · rw [if_pos h0] at h; exact absurd h (by simp)
  · cases t with
    | nil => exact absurd rfl h0
    | cons c t0 =>
      refine ⟨c, t0, rfl, ?_⟩
      by_contra hc
      have : c.isDigit = false := by simpa using hc
      simp [List.takeWhile_cons, this] at h0

theorem eatChar_some {c : Char} {t r : List Char} (h : eatChar c t = some r) :
    t = c :: r := by
  cases t with
  | nil => exact absurd h (by simp [eatChar])
  | cons d t0 =>
    simp only [eatChar] at h
    by_cases hd : d = c
    · rw [if_pos hd] at h
      cases h
      rw [hd]
    · rw [if_neg hd] at h
      exact absurd h (by simp)

/-- A text matching the H3 pattern matches neither the H1 nor the H2 pattern:
after the first digit run comes a dot then a digit (not whitespace), and after
the second digit run comes a dot (not whitespace). -/
theorem matchNum3_excludes {t : List Char} (h : matchNum3 t = true) :
    matchNum1 t = false ∧ matchNum2 t = false := by
  unfold matchNum3 at h
  cases ha : eatNumDot t with
  | none => rw [ha] at h; simp [optWS] at h
  | some a =>
    rw [ha] at h
    simp only [Option.some_bind] at h
    cases hb : eatNumDot a with
    | none => rw [hb] at h; simp [optWS] at h
    | some b =>
      rw [hb] at h
      have hb2 : (eatDigits a).bind (eatChar '.') = some b := hb
      cases hda : eatDigits a with
      | none => rw [hda] at hb2; exact absurd hb2 (by simp)
      | some a1 =>
        rw [hda] at hb2
        simp only [Option.some_bind] at hb2
        have ha1 : a1 = '.' :: b := eatChar_some hb2
        obtain ⟨c, a0, hac, hcd⟩ := eatDigits_some_head hda
        constructor
        · show optWS (eatNumDot t) = false
          rw [ha]
          show startsWS a = false
          rw [hac]
          exact digit_not_ws hcd
        · show optWS ((eatNumDot t).bind eatDigits) = false
          rw [ha]
          simp only [Option.some_bind]
          rw [hda]
          show startsWS a1 = false
          rw [ha1]
          rfl

/-- Any text matching the H3 numbered pattern with at most ten words is
classified H3 by the numbered-prefix detector. -/
theorem detect_of_matchNum3 {t : List Char} (h3 : matchNum3 t = true)
    (hwc : wordCount t ≤ 10) : detectHeadingLevelByNumber t = some HLevel.H3 := by
  obtain ⟨h1, h2⟩ := matchNum3_excludes h3
  unfold detectHeadingLevelByNumber
  rw [if_neg (by rw [h1]; rintro ⟨hc, -⟩; exact absurd hc (by simp))]
  rw [if_neg (by rw [h2]; rintro ⟨hc, -⟩; exact absurd hc (by simp))]
  rw [if_pos ⟨h3, hwc⟩]

theorem classify_of_matchNum3 {t : List Char} (s : ℚ) (th : Option Thresholds)
    (h3 : matchNum3 t = true) (hwc : wordCount t ≤ 10) :
    classifyHeadingLevel t s th = some HLevel.H3 := by
  unfold classifyHeadingLevel
  rw [detect_of_matchNum3 h3 hwc]

/-! ## Transition analysis of the heading loop -/

/-- One step of the heading loop either leaves the state unchanged, or emits
exactly one heading built from the cleaned line text and records its key. -/
theorem processLine_eq_or (title : List Char) (th : Option Thresholds) (pn : Nat)
    (line : Line) (st : HState) :
    processLine title th pn line st = st ∨
    (cleanText (rawOf line) ≠ [] ∧ sizesOf line ≠ [] ∧ isTableLike line = false ∧
     headingCandidateTest line (thBody th) = true ∧
     lowerStr (cleanText title) ≠ lowerStr (cleanText (rawOf line)) ∧
     headingKey (cleanText (rawOf line)) ∉ st.2 ∧
     ∃ lvl, classifyHeadingLevel (cleanText (rawOf line)) (avgOf line) th = some lvl ∧
       processLine title th pn line st =
         (st.1 ++ [⟨lvl, cleanText (rawOf line) ++ [' '], pn - 1⟩],
          st.2 ++ [headingKey (cleanText (rawOf line))])) := by
  unfold processLine
  split_ifs with h1 h2 h3 h4 h5 h6 h7
  · exact Or.inl rfl
  · exact Or.inl rfl
  · exact Or.inl rfl
  · exact Or.inl rfl
  · exact Or.inl rfl
  · exact Or.inl rfl
  · exact Or.inl rfl
  · cases hcl : classifyHeadingLevel (cleanText (rawOf line)) (avgOf line) th with
    | none => exact Or.inl rfl
    | some lvl =>
      push_neg at h2
      refine Or.inr ⟨h2.1, h2.2, by simpa using h3, ?_, h6, h7, lvl, rfl, rfl⟩
      rcases hb : headingCandidateTest line (thBody th) with _ | _
      · exact absurd hb h5
      · rfl

/-- The heading list only grows. -/
theorem processLine_sub (title : List Char) (th : Option Thresholds) (pn : Nat)
    (line : Line) (st : HState) :
    ∀ h ∈ st.1, h ∈ (processLine title th pn line st).1 := by
  rcases processLine_eq_or title th pn line st with heq | ⟨-, -, -, -, -, -, hcl⟩
  · rw [heq]; intro h hh; exact hh
  · obtain ⟨lvl, -, heq⟩ := hcl
    rw [heq]
    intro h hh
    exact List.mem_append.mpr (Or.inl hh)

/-- The property a newly emitted heading of line `line` on page number `pn`
must satisfy, given the guards that were passed. -/
def EmitsOK (title : List Char) (th : Option Thresholds) (pn : Nat) (line : Line)
    (P : Heading → Prop) : Prop :=
  ∀ lvl, classifyHeadingLevel (cleanText (rawOf line)) (avgOf line) th = some lvl →
    cleanText (rawOf line) ≠ [] → sizesOf line ≠ [] → isTableLike line = false →
    headingCandidateTest line (thBody th) = true →
    lowerStr (cleanText title) ≠ lowerStr (cleanText (rawOf line)) →
    P ⟨lvl, cleanText (rawOf line) ++ [' '], pn - 1⟩

theorem processLine_post {P : Heading → Prop} {title : List Char} {th : Option Thresholds}
    {pn : Nat} {line : Line} {st : HState}
    (hold : ∀ h ∈ st.1, P h) (hE : EmitsOK title th pn line P) :
    ∀ h ∈ (processLine title th pn line st).1, P h := by
  rcases processLine_eq_or title th pn line st with heq | ⟨h1, h2, h3, h5, h6, -, lvl, hcl, heq⟩
  · rw [heq]; exact hold
  · rw [heq]
    intro h hh
    rcases List.mem_append.mp hh with hh | hh
    · exact hold h hh
    · have hh2 := List.mem_singleton.mp hh
      subst hh2
      exact hE lvl hcl h1 h2 h3 h5 h6

theorem processBlock_post {P : Heading → Prop} {title : List Char} {th : Option Thresholds}
    {pn : Nat} :
    ∀ {b : Block} {st : HState}, (∀ h ∈ st.1, P h) →
      (∀ line ∈ b, EmitsOK title th pn line P) →
      ∀ h ∈ (processBlock title th pn b st).1, P h := by
  intro b
  induction b with
  | nil => intro st hold _; exact hold
  | cons l b ih =>
    intro st hold hE
    have step : processBlock title th pn (l :: b) st
        = processBlock title th pn b (processLine title th pn l st) := rfl
    rw [step]
    exact ih (processLine_post hold (hE l (by simp))) (fun line hline => hE line (by simp [hline]))

theorem processPage_post {P : Heading → Prop} {title : List Char} {th : Option Thresholds}
    {pn : Nat} :
    ∀ {p : Page} {st : HState}, (∀ h ∈ st.1, P h) →
      (∀ line ∈ linesOfPage p, EmitsOK title th pn line P) →
      ∀ h ∈ (processPage title th pn p st).1, P h := by
  intro p
  induction p with
  | nil => intro st hold _; exact hold
  | cons b p ih =>
    intro st hold hE
    have step : processPage title th pn (b :: p) st
        = processPage title th pn p (processBlock title th pn b st) := rfl
    rw [step]
    refine ih (processBlock_post hold ?_) ?_
    · intro line hline
      exact hE line (by simp [linesOfPage, concatMap, hline])
    · intro line hline
      refine hE line ?_
      simp only [linesOfPage, concatMap] at hline ⊢
      exact List.mem_append.mpr (Or.inr hline)

theorem extractFrom_post {P : Heading → Prop} {title : List Char} {th : Option Thresholds} :
    ∀ {pages : List Page} {pn : Nat} {st : HState}, (∀ h ∈ st.1, P h) →
      (∀ i, ∀ hi : i < pages.length, ∀ line ∈ linesOfPage (pages.get ⟨i, hi⟩),
        EmitsOK title th (pn + i) line P) →
      ∀ h ∈ (extractFrom title th pn pages st).1, P h := by
  intro pages
  induction pages with
  | nil => intro pn st hold _; exact hold
  | cons p rest ih =>
    intro pn st hold hE
    have step : extractFrom title th pn (p :: rest) st
        = extractFrom title th (pn + 1) rest (processPage title th pn p st) := rfl
    rw [step]
    refine ih (processPage_post hold ?_) ?_
    · intro line hline
      have := hE 0 (by simp) line (by simpa using hline)
      simpa using this
    · intro i hi line hline
      have := hE (i + 1) (by simpa using Nat.succ_lt_succ hi) line (by simpa using hline)
      have harith : pn + (i + 1) = pn + 1 + i := by omega
      rwa [harith] at this

/-- Master membership lemma: every heading in the output was emitted, with
level assigned by the classifier, from a line of the page whose 0-based index
equals the page field of the heading, after passing every guard. -/
theorem extractHeadings_mem {doc : Doc} {title : List Char} {th : Option Thresholds}
    {h : Heading} (hh : h ∈ extractHeadingsFromDocument doc title th) :
    ∃ i, ∃ hi : i < doc.length, ∃ line, line ∈ linesOfPage (doc.get ⟨i, hi⟩) ∧
      h.page = i ∧ h.text = cleanText (rawOf line) ++ [' '] ∧
      classifyHeadingLevel (cleanText (rawOf line)) (avgOf line) th = some h.level ∧
      cleanText (rawOf line) ≠ [] ∧ sizesOf line ≠ [] ∧ isTableLike line = false ∧
      headingCandidateTest line (thBody th) = true ∧
      lowerStr (cleanText title) ≠ lowerStr (cleanText (rawOf line)) := by
  refine extractFrom_post (P := fun hd =>
    ∃ i, ∃ hi : i < doc.length, ∃ line, line ∈ linesOfPage (doc.get ⟨i, hi⟩) ∧
      hd.page = i ∧ hd.text = cleanText (rawOf line) ++ [' '] ∧
      classifyHeadingLevel (cleanText (rawOf line)) (avgOf line) th = some hd.level ∧
      cleanText (rawOf line) ≠ [] ∧ sizesOf line ≠ [] ∧ isTableLike line = false ∧
      headingCandidateTest line (thBody th) = true ∧
      lowerStr (cleanText title) ≠ lowerStr (cleanText (rawOf line)))
    (by simp) ?_ h hh
  intro i hi line hline lvl hcl hne hsz htab hcand htitle
  exact ⟨i, hi, line, hline, by simp, by simp, hcl, hne, hsz, htab, hcand, htitle⟩


/-! ## Normalization lemmas for emitted headings -/

theorem normText_emit (s : List Char) :
    normText (cleanText s ++ [' ']) = lowerStr (cleanText s) := by
  unfold normText
  rw [stripWS_cleanText_space]

theorem stripWS_normText_emit (s : List Char) :
    stripWS (normText (cleanText s ++ [' '])) = headingKey (cleanText s) := by
  rw [normText_emit]
  rfl

/-! ## The C1 invariant: normalized texts are pairwise distinct and recorded -/

def InvC1 (st : HState) : Prop :=
  (st.1.map (fun hd => normText hd.text)).Pairwise (· ≠ ·) ∧
  ∀ hd ∈ st.1, stripWS (normText hd.text) ∈ st.2

theorem processLine_invC1 (title : List Char) (th : Option Thresholds) (pn : Nat)
    (line : Line) (st : HState) (hI : InvC1 st) :
    InvC1 (processLine title th pn line st) := by
  rcases processLine_eq_or title th pn line st with heq | ⟨h1, h2, h3, h5, h6, h7, lvl, hcl, heq⟩
  · rw [heq]; exact hI
  · rw [heq]
    obtain ⟨hpw, hseen⟩ := hI
    constructor
    · rw [List.map_append, List.pairwise_append]
      refine ⟨hpw, by simp, ?_⟩
      intro a ha b hb hab
      simp only [List.map_cons, List.map_nil, List.mem_singleton] at hb
      subst hb
      simp only [List.mem_map] at ha
      obtain ⟨hd, hdmem, rfl⟩ := ha
      have hka : stripWS (normText hd.text) ∈ st.2 := hseen hd hdmem
      rw [hab] at hka
      rw [stripWS_normText_emit] at hka
      exact h7 hka
    · intro hd hdmem
      rcases List.mem_append.mp hdmem with hmem | hmem
      · exact List.mem_append.mpr (Or.inl (hseen hd hmem))
      · have hm2 := List.mem_singleton.mp hmem
        subst hm2
        rw [stripWS_normText_emit]
        exact List.mem_append.mpr (Or.inr (by simp))

/-! ## Generic invariant preservation through the folds -/

theorem processBlock_pres {Q : HState → Prop} {title : List Char} {th : Option Thresholds}
    (hli : ∀ pn line st, Q st → Q (processLine title th pn line st)) :
    ∀ (pn : Nat) (b : Block) (st : HState), Q st → Q (processBlock title th pn b st) := by
  intro pn b
  induction b with
  | nil => intro st hq; exact hq
  | cons l b ih => intro st hq; exact ih _ (hli pn l st hq)

theorem processPage_pres {Q : HState → Prop} {title : List Char} {th : Option Thresholds}
    (hli : ∀ pn line st, Q st → Q (processLine title th pn line st)) :
    ∀ (pn : Nat) (p : Page) (st : HState), Q st → Q (processPage title th pn p st) := by
  intro pn p
  induction p with
  | nil => intro st hq; exact hq
  | cons b p ih => intro st hq; exact ih _ (processBlock_pres hli pn b st hq)

theorem extractFrom_pres {Q : HState → Prop} {title : List Char} {th : Option Thresholds}
    (hli : ∀ pn line st, Q st → Q (processLine title th pn line st)) :
    ∀ (pages : List Page) (pn : Nat) (st : HState), Q st →
      Q (extractFrom title th pn pages st) := by
  intro pages
  induction pages with
  | nil => intro pn st hq; exact hq
  | cons p rest ih => intro pn st hq; exact ih _ _ (processPage_pres hli pn p st hq)

/-- C1: in any extracted outline, the normalized (lowercased, trimmed) texts
of the heading records are pairwise distinct; the seen-set is threaded through
the whole document, so the deduplication is global, not per page. -/
theorem c1_outline_dedup_global (doc : Doc) (title : List Char) (th : Option Thresholds) :
    ((extractHeadingsFromDocument doc title th).map (fun hd => normText hd.text)).Pairwise
      (· ≠ ·) := by
  have base : InvC1 ([], []) := ⟨by simp, by simp⟩
  have hfin := extractFrom_pres (Q := InvC1)
    (fun pn line st => processLine_invC1 title th pn line st) doc 1 ([], []) base
  exact hfin.1

/-! ## Title shape lemmas -/

theorem lineCandidate_some {pn : Nat} {line : Line} {c : TitleCand}
    (h : lineCandidate pn line = some c) :
    c.text = cleanText (rawOf line) ∧ c.size = avgOf line ∧ c.page = pn ∧
      10 < c.text.length ∧ c.text.length < 150 ∧ 10 < avgOf line ∧
      startsL pageTok (lowerStr c.text) = false := by
  unfold lineCandidate at h
  split_ifs at h with h1 h2 h3
  all_goals first
    | exact Option.noConfusion h
    | (injection h with hinj
       subst hinj
       obtain ⟨ha, hb, hc, hd⟩ := h3
       refine ⟨rfl, rfl, rfl, ha, hb, hc, ?_⟩
       rcases hs : startsL pageTok (lowerStr (cleanText (rawOf line))) with _ | _
       · rfl
       · exact absurd hs hd)

theorem titleCands_text :
    ∀ {pages : List Page} {pn : Nat} {c : TitleCand}, c ∈ titleCandsFrom pn pages →
      ∃ s, c.text = cleanText s ∧ 10 < c.text.length := by
  intro pages
  induction pages with
  | nil => intro pn c hc; simp [titleCandsFrom] at hc
  | cons p rest ih =>
    intro pn c hc
    unfold titleCandsFrom at hc
    rcases List.mem_append.mp hc with hc | hc
    · obtain ⟨b, -, hcb⟩ := mem_concatMap.mp hc
      obtain ⟨line, -, hline⟩ := List.mem_filterMap.mp hcb
      obtain ⟨ht, -, -, hlen, -⟩ := lineCandidate_some hline
      exact ⟨rawOf line, ht, hlen⟩
    · exact ih hc

theorem foldl_better_mem : ∀ (cs : List TitleCand) (c : TitleCand),
    cs.foldl betterCand c ∈ c :: cs := by
  intro cs
  induction cs with
  | nil => intro c; simp
  | cons d cs ih =>
    intro c
    have step : (d :: cs).foldl betterCand c = cs.foldl betterCand (betterCand c d) := rfl
    rw [step]
    have hmem := ih (betterCand c d)
    have hbd : betterCand c d = c ∨ betterCand c d = d := by
      unfold betterCand
      split_ifs
      · exact Or.inr rfl
      · exact Or.inl rfl
    rcases List.mem_cons.mp hmem with hh | hh
    · rw [hh]
      rcases hbd with he | he
      · rw [he]; simp
      · rw [he]; simp
    · simp [hh]

theorem extractTitle_shape (doc : Doc) :
    extractTitleFromDocument doc = untitledTok ∨
      ∃ c ∈ titleCandidates doc, extractTitleFromDocument doc = c.text := by
  unfold extractTitleFromDocument
  cases hc : titleCandidates doc with
  | nil => exact Or.inl rfl
  | cons c cs =>
    refine Or.inr ⟨cs.foldl betterCand c, ?_, rfl⟩
    exact foldl_better_mem cs c

/-- The extracted title is fixed by both stripping and cleaning. -/
theorem extractTitle_fixed (doc : Doc) :
    stripWS (extractTitleFromDocument doc) = extractTitleFromDocument doc ∧
      cleanText (extractTitleFromDocument doc) = extractTitleFromDocument doc := by
  rcases extractTitle_shape doc with h | ⟨c, hc, h⟩
  · rw [h]
    exact ⟨by decide, by decide⟩
  · obtain ⟨s, hs, -⟩ := titleCands_text hc
    rw [h, hs]
    exact ⟨stripWS_cleanText s, cleanText_idem s⟩

/-- C2: the normalized title never occurs among the normalized texts of the
outline of the same extraction result. -/
theorem c2_title_excluded (parsed : Except (List Char) Doc) :
    normText (extractOutlineFromPdf parsed).title ∉
      ((extractOutlineFromPdf parsed).outline.map (fun hd => normText hd.text)) := by
  cases parsed with
  | error e => simp [extractOutlineFromPdf]
  | ok doc =>
    simp only [extractOutlineFromPdf]
    by_cases hz : doc.length = 0
    · rw [if_pos hz]; simp
    · rw [if_neg hz]
      intro hmem
      simp only [List.mem_map] at hmem
      obtain ⟨hd, hdmem, heq⟩ := hmem
      obtain ⟨i, hi, line, hline, hpage, htext, hcl, hne, hsz, htab, hcand, htne⟩ :=
        extractHeadings_mem hdmem
      rw [htext, normText_emit] at heq
      obtain ⟨hstrip, hclean⟩ := extractTitle_fixed doc
      apply htne
      rw [hclean]
      have hnt : normText (extractTitleFromDocument doc)
          = lowerStr (extractTitleFromDocument doc) := by
        unfold normText
        rw [hstrip]
      rw [← hnt]
      exact heq.symm

/-- C3: a text matching the H3 numbered pattern with at most 10 words is
classified H3 under any thresholds, and no heading whose trimmed text matches
that pattern with at most 10 words is ever emitted with another level. -/
theorem c3_numbered_prefix_h3 :
    (∀ (t : List Char) (s : ℚ) (th : Option Thresholds), matchNum3 t = true →
        wordCount t ≤ 10 → classifyHeadingLevel t s th = some HLevel.H3) ∧
    (∀ (doc : Doc) (title : List Char) (th : Option Thresholds) (h : Heading),
        h ∈ extractHeadingsFromDocument doc title th →
        matchNum3 (stripWS h.text) = true → wordCount (stripWS h.text) ≤ 10 →
        h.level = HLevel.H3) := by
  constructor
  · intro t s th h3 hwc
    exact classify_of_matchNum3 s th h3 hwc
  · intro doc title th h hmem h3 hwc
    obtain ⟨i, hi, line, hline, hpage, htext, hcl, -, -, -, -, -⟩ := extractHeadings_mem hmem
    rw [htext, stripWS_cleanText_space] at h3 hwc
    have hcl3 := classify_of_matchNum3 (avgOf line) th h3 hwc
    rw [hcl3] at hcl
    injection hcl with hlvl
    exact hlvl.symm

/-- Witness for C3 at a concrete input. -/
theorem c3_numbered_prefix_h3_witness :
    classifyHeadingLevel ("2.1.3 Overview".toList) 9 none = some HLevel.H3 :=
  c3_numbered_prefix_h3.1 ("2.1.3 Overview".toList) 9 none (by decide) (by decide)

/-- C9: the orchestrator maps a parse failure to the Error result and a
zero-page document to the Empty Document result; being a total function, it
never propagates a failure. -/
theorem c9_orchestrator_degenerate :
    (∀ e : List Char, extractOutlineFromPdf (Except.error e) = ⟨errorTok, []⟩) ∧
    extractOutlineFromPdf (Except.ok ([] : Doc)) = ⟨emptyDocTok, []⟩ := by
  constructor
  · intro e; rfl
  · rfl

/-- C8: every emitted heading carries the 0-based index of the page it was
found on: found on the k-th page (1-based), its page field is k - 1 and its
text is the cleaned text of a line of that page. -/
theorem c8_zero_indexed_pages (doc : Doc) (title : List Char) (th : Option Thresholds)
    (h : Heading) (hmem : h ∈ extractHeadingsFromDocument doc title th) :
    ∃ k, 1 ≤ k ∧ k ≤ doc.length ∧ h.page = k - 1 ∧
      ∃ hk : k - 1 < doc.length, ∃ line ∈ linesOfPage (doc.get ⟨k - 1, hk⟩),
        h.text = cleanText (rawOf line) ++ [' '] := by
  obtain ⟨i, hi, line, hline, hpage, htext, -, -, -, -, -⟩ := extractHeadings_mem hmem
  exact ⟨i + 1, by omega, by omega, by simpa using hpage, by simpa using hi, line, hline, htext⟩

def wSpan8 : Span := ⟨"1. Introduction".toList, "Helv".toList, 0, 12, 0⟩
def wLine8 : Line := ⟨[wSpan8]⟩
def wDoc8 : Doc := [[[wLine8]]]
def wHead8 : Heading := ⟨HLevel.H1, "1. Introduction ".toList, 0⟩

/-- Shortcut: a clean short text passes the likely-heading test via its word
count, for any sizes. -/
theorem isLikelyHeading_of_wc {t : List Char} (s b : ℚ)
    (hlen : ¬((cleanText t).length < 2 ∨ 200 < (cleanText t).length))
    (hnp : isNumPunct (cleanText t) = false)
    (hsp : skipPattern (lowerStr (cleanText t)) = false)
    (hwc : wordCount (cleanText t) ≤ 10) :
    isLikelyHeading t s b = true := by
  unfold isLikelyHeading
  rw [if_neg (by
    push_neg at hlen
    simp only [Bool.or_eq_true, decide_eq_true_eq]
    push_neg
    omega)]
  rw [if_neg (by rw [hnp]; exact Bool.false_ne_true)]
  rw [if_neg (by rw [hsp]; exact Bool.false_ne_true)]
  rw [show decide (wordCount (cleanText t) ≤ 10) = true from decide_eq_true hwc]
  simp

theorem headingCandidateTest_of_wc {line : Line} (b : ℚ)
    (hlen : ¬((cleanText (cleanText (rawOf line))).length < 2
      ∨ 200 < (cleanText (cleanText (rawOf line))).length))
    (hnp : isNumPunct (cleanText (cleanText (rawOf line))) = false)
    (hsp : skipPattern (lowerStr (cleanText (cleanText (rawOf line)))) = false)
    (hwc : wordCount (cleanText (cleanText (rawOf line))) ≤ 10) :
    headingCandidateTest line b = true := by
  unfold headingCandidateTest
  rw [isLikelyHeading_of_wc (avgOf line) b hlen hnp hsp hwc]
  simp

theorem classify_of_detect {t : List Char} (s : ℚ) (th : Option Thresholds) {lvl : HLevel}
    (h : detectHeadingLevelByNumber t = some lvl) :
    classifyHeadingLevel t s th = some lvl := by
  unfold classifyHeadingLevel
  rw [h]

/-- Evaluation shortcut: when every guard passes, one heading is emitted. -/
theorem processLine_emits {title : List Char} {th : Option Thresholds} {pn : Nat}
    {line : Line} {st : HState}
    (h0 : ¬(line.spans = []))
    (h1 : ¬(cleanText (rawOf line) = []))
    (h2 : ¬(sizesOf line = []))
    (h3 : isTableLike line = false)
    (h4 : ¬(matchFormPrefix (stripWS (cleanText (rawOf line))) = true
      ∧ 5 ≤ wordCount (cleanText (rawOf line))))
    (h5 : headingCandidateTest line (thBody th) = true)
    (h6 : ¬(lowerStr (cleanText title) = lowerStr (cleanText (rawOf line))))
    (h7 : ¬(headingKey (cleanText (rawOf line)) ∈ st.2))
    {lvl : HLevel}
    (h8 : classifyHeadingLevel (cleanText (rawOf line)) (avgOf line) th = some lvl) :
    processLine title th pn line st =
      (st.1 ++ [⟨lvl, cleanText (rawOf line) ++ [' '], pn - 1⟩],
       st.2 ++ [headingKey (cleanText (rawOf line))]) := by
  unfold processLine
  rw [if_neg h0, if_neg (not_or.mpr ⟨h1, h2⟩), if_neg (by rw [h3]; exact Bool.false_ne_true),
    if_neg h4, if_neg (by intro hc; rw [h5] at hc; exact Bool.noConfusion hc),
    if_neg h6, if_neg h7, h8]

/-- Evaluation shortcut: a line whose cleaned text equals the cleaned title
(after lowercasing) never changes the state. -/
theorem processLine_skip_title {title : List Char} {th : Option Thresholds} {pn : Nat}
    {line : Line} {st : HState}
    (h6 : lowerStr (cleanText title) = lowerStr (cleanText (rawOf line))) :
    processLine title th pn line st = st := by
  unfold processLine
  split_ifs with a1 a2 a3 a4 a5 a6 a7
  all_goals first
    | rfl
    | (exact absurd h6 (by assumption))

theorem wDoc8_eval : extractHeadingsFromDocument wDoc8 [] none = [wHead8] := by
  have hpl : processLine [] none 1 wLine8 ([], []) =
      ([⟨HLevel.H1, cleanText (rawOf wLine8) ++ [' '], 0⟩],
       [headingKey (cleanText (rawOf wLine8))]) :=
    processLine_emits (by decide) (by decide) (by decide) (by decide) (by decide)
      (headingCandidateTest_of_wc (thBody none) (by decide) (by decide) (by decide) (by decide))
      (by decide) (by decide)
      (classify_of_detect (avgOf wLine8) none (by decide))
  simp only [extractHeadingsFromDocument, wDoc8, extractFrom, processPage, processBlock,
    List.foldl_cons, List.foldl_nil]
  rw [hpl]
  decide

/-- Witness for C8 at a concrete one-page document. -/
theorem c8_zero_indexed_pages_witness :
    ∃ k, 1 ≤ k ∧ k ≤ wDoc8.length ∧ wHead8.page = k - 1 ∧
      ∃ hk : k - 1 < wDoc8.length, ∃ line ∈ linesOfPage (wDoc8.get ⟨k - 1, hk⟩),
        wHead8.text = cleanText (rawOf line) ++ [' '] :=
  c8_zero_indexed_pages wDoc8 [] none wHead8 (by rw [wDoc8_eval]; simp)

/-! ## C10: bold-by-font-name and the candidate test -/

def cSpanBoldEmpty : Span := ⟨[], "Arial-BoldMT".toList, 0, 12, 0⟩
def cSpanPlain : Span :=
  ⟨"this is a long plain sentence with eleven words in it".toList, "Arial".toList, 0, 12, 50⟩
def c10Line : Line := ⟨[cSpanBoldEmpty, cSpanPlain]⟩

/-- C10 counterexample: a line containing a bold-named span whose text is
whitespace-only fails the candidate test — the guard only consults spans with
non-whitespace text, so the claim as stated is false. -/
theorem c10_counterexample :
    containsSub boldTok (lowerStr cSpanBoldEmpty.font) = true ∧
    cSpanBoldEmpty ∈ c10Line.spans ∧
    headingCandidateTest c10Line 12 = false := by
  refine ⟨by decide, by decide, ?_⟩
  have hsz : sizesOf c10Line = [12] := by decide
  have havg : avgOf c10Line = 12 := by
    unfold avgOf
    rw [hsz]
    norm_num
  have hlik : isLikelyHeading (cleanText (rawOf c10Line)) (avgOf c10Line) 12 = false := by
    unfold isLikelyHeading
    rw [if_neg (by decide), if_neg (by decide), if_neg (by decide)]
    rw [havg]
    rw [show decide ((12 : ℚ) ≥ 12 * 105 / 100) = false from by norm_num]
    rw [show pyIsUpper (cleanText (cleanText (rawOf c10Line))) = false from by decide]
    rw [show pyIsTitle (cleanText (cleanText (rawOf c10Line))) = false from by decide]
    rw [show endsColon (cleanText (cleanText (rawOf c10Line))) = false from by decide]
    rw [show decide (wordCount (cleanText (cleanText (rawOf c10Line))) ≤ 10) = false from
      by decide]
    decide
  unfold headingCandidateTest
  rw [hlik]
  rw [show (liveSpans c10Line).any isBold = false from by decide]
  decide

/-- C10 amended: a span whose font name contains "bold" case-insensitively is
treated as bold even with the flag bit clear, and a line containing at least
one such span with non-whitespace text always passes the candidate test. -/
theorem c10_amended :
    (∀ sp : Span, containsSub boldTok (lowerStr sp.font) = true → isBold sp = true) ∧
    (∀ (line : Line) (b : ℚ) (sp : Span), sp ∈ line.spans → stripWS sp.text ≠ [] →
      containsSub boldTok (lowerStr sp.font) = true →
      headingCandidateTest line b = true) := by
  have hbold : ∀ sp : Span, containsSub boldTok (lowerStr sp.font) = true → isBold sp = true := by
    intro sp h
    unfold isBold
    rw [h]
    simp
  refine ⟨hbold, ?_⟩
  intro line b sp hmem hne hb
  unfold headingCandidateTest
  have hlive : sp ∈ liveSpans line := by
    unfold liveSpans
    rw [List.mem_filter]
    exact ⟨hmem, by simpa using hne⟩
  have hany : (liveSpans line).any isBold = true := by
    rw [List.any_eq_true]
    exact ⟨sp, hlive, hbold sp hb⟩
  rw [hany]
  simp

def wBoldSpan : Span := ⟨"Heading".toList, "Bold".toList, 0, 12, 0⟩
def wBoldLine : Line := ⟨[wBoldSpan]⟩

/-- Witness for the amended C10 at a concrete bold-named span. -/
theorem c10_amended_witness :
    isBold wBoldSpan = true ∧ headingCandidateTest wBoldLine 50 = true :=
  ⟨c10_amended.1 wBoldSpan (by decide),
   c10_amended.2 wBoldLine 50 wBoldSpan (by decide) (by decide) (by decide)⟩

/-! ## C4: the four-span table filter -/

/-- C4 amended: a line with at least 4 spans of which at least 2 carry
non-whitespace text is treated as table-like and never changes the state of
the heading loop. -/
theorem c4_amended (title : List Char) (th : Option Thresholds) (pn : Nat) (line : Line)
    (st : HState) (h4 : 4 ≤ line.spans.length) (h2 : 2 ≤ (liveSpans line).length) :
    processLine title th pn line st = st := by
  have htab : isTableLike line = true := by
    unfold isTableLike
    rw [if_neg (by
      unfold xPositions
      rw [List.length_map]
      omega)]
    rw [show decide (4 ≤ line.spans.length) = true from decide_eq_true h4]
    rw [Bool.or_true]
  unfold processLine
  split_ifs with a1 a2 a3 a4 a5 a6 a7
  all_goals first
    | rfl
    | (exact absurd htab (by assumption))

def w4Font : List Char := "Helv".toList
def w4Line : Line :=
  ⟨[⟨"Col1".toList, w4Font, 0, 12, 0⟩, ⟨"Col2".toList, w4Font, 0, 12, 10⟩,
    ⟨[], w4Font, 0, 12, 20⟩, ⟨[], w4Font, 0, 12, 30⟩]⟩

/-- Witness for the amended C4 at a concrete four-span line. -/
theorem c4_amended_witness : processLine [] none 1 w4Line ([], []) = ([], []) :=
  c4_amended [] none 1 w4Line ([], []) (by decide) (by decide)

/-- Evaluation shortcut: when every guard passes, a line yields its title
candidate. -/
theorem lineCandidate_emits {pn : Nat} {line : Line}
    (h0 : ¬(line.spans = []))
    (h1 : ¬(cleanText (rawOf line) = []))
    (h2 : ¬(sizesOf line = []))
    (h3 : 10 < (cleanText (rawOf line)).length)
    (h4 : (cleanText (rawOf line)).length < 150)
    (h5 : 10 < avgOf line)
    (h6 : startsL pageTok (lowerStr (cleanText (rawOf line))) = false) :
    lineCandidate pn line =
      some ⟨cleanText (rawOf line), avgOf line, pn, (cleanText (rawOf line)).length⟩ := by
  unfold lineCandidate
  rw [if_neg h0, if_neg (not_or.mpr ⟨h1, h2⟩),
    if_pos ⟨h3, h4, h5, by rw [h6]; exact Bool.false_ne_true⟩]

/-! ## C4 counterexample: a 4-span line with one live span reaches the outline -/

def c4Title : List Char := "Some Long Document Title Here".toList
def c4HeadText : List Char := "1. Introduction".toList
def c4Font : List Char := "Helv".toList
def c4TitleLine : Line := ⟨[⟨c4Title, c4Font, 0, 30, 0⟩]⟩
def c4Line : Line :=
  ⟨[⟨c4HeadText, c4Font, 0, 20, 0⟩, ⟨[], c4Font, 0, 20, 40⟩,
    ⟨[], c4Font, 0, 20, 80⟩, ⟨[], c4Font, 0, 20, 120⟩]⟩
def c4Doc : Doc := [[[c4TitleLine, c4Line]]]
def c4CandT : TitleCand := ⟨c4Title, 30, 1, 29⟩
def c4CandH : TitleCand := ⟨c4HeadText, 20, 1, 15⟩

theorem c4_avgT : avgOf c4TitleLine = 30 := by
  have hsz : sizesOf c4TitleLine = [30] := by decide
  unfold avgOf
  rw [hsz]
  norm_num

theorem c4_avgH : avgOf c4Line = 20 := by
  have hsz : sizesOf c4Line = [20] := by decide
  unfold avgOf
  rw [hsz]
  norm_num

theorem c4_candT : lineCandidate 1 c4TitleLine = some c4CandT := by
  rw [lineCandidate_emits (by decide) (by decide) (by decide) (by decide) (by decide)
    (by rw [c4_avgT]; norm_num) (by decide)]
  rw [show cleanText (rawOf c4TitleLine) = c4Title from by decide, c4_avgT]
  decide

theorem c4_candH : lineCandidate 1 c4Line = some c4CandH := by
  rw [lineCandidate_emits (by decide) (by decide) (by decide) (by decide) (by decide)
    (by rw [c4_avgH]; norm_num) (by decide)]
  rw [show cleanText (rawOf c4Line) = c4HeadText from by decide, c4_avgH]
  decide

theorem c4_title_eval : extractTitleFromDocument c4Doc = c4Title := by
  have hcands : titleCandidates c4Doc = [c4CandT, c4CandH] := by
    unfold titleCandidates
    rw [show c4Doc.take 3 = c4Doc from by decide]
    simp only [c4Doc, titleCandsFrom, concatMap, List.filterMap_cons, c4_candT, c4_candH,
      List.filterMap_nil, List.append_nil]
  unfold extractTitleFromDocument
  simp only [hcands, List.foldl_cons, List.foldl_nil]
  rw [show betterCand c4CandT c4CandH = c4CandT from by
    unfold betterCand
    rw [if_neg (by norm_num [c4CandT, c4CandH])]]
  rfl

/-- C4 counterexample: in this concrete document the line with 4 spans (three
of them whitespace-only) produces the single outline entry, so a line with at
least 4 spans can contribute a HeadingRecord. -/
theorem c4_counterexample :
    4 ≤ c4Line.spans.length ∧
    (extractOutlineFromPdf (Except.ok c4Doc)).outline
      = [⟨HLevel.H1, "1. Introduction ".toList, 0⟩] ∧
    cleanText (rawOf c4Line) = c4HeadText := by
  refine ⟨by decide, ?_, by decide⟩
  have houtline : (extractOutlineFromPdf (Except.ok c4Doc)).outline
      = extractHeadingsFromDocument c4Doc (extractTitleFromDocument c4Doc)
          (analyzeFontSizes c4Doc) := by
    simp only [extractOutlineFromPdf]
    rw [if_neg (by decide)]
  rw [houtline, c4_title_eval]
  have hskipT : ∀ th, processLine c4Title th 1 c4TitleLine ([], []) = ([], []) :=
    fun th => processLine_skip_title (by decide)
  have hemit : ∀ th, processLine c4Title th 1 c4Line ([], [])
      = ([⟨HLevel.H1, cleanText (rawOf c4Line) ++ [' '], 0⟩],
         [headingKey (cleanText (rawOf c4Line))]) :=
    fun th => processLine_emits (by decide) (by decide) (by decide) (by decide) (by decide)
      (headingCandidateTest_of_wc (thBody th) (by decide) (by decide)
        (by decide) (by decide))
      (by decide) (by decide)
      (classify_of_detect (avgOf c4Line) th (by decide))
  simp only [extractHeadingsFromDocument, c4Doc, extractFrom, processPage, processBlock,
    List.foldl_cons, List.foldl_nil]
  rw [hskipT, hemit]
  decide

/-! ## C5: single-size documents -/

theorem foldl_choice {α : Type} (f : α → α → α) (hf : ∀ a b, f a b = a ∨ f a b = b) :
    ∀ (l : List α) (a : α), l.foldl f a ∈ a :: l := by
  intro l
  induction l with
  | nil => intro a; simp
  | cons b l ih =>
    intro a
    have step : (b :: l).foldl f a = l.foldl f (f a b) := rfl
    rw [step]
    have hmem := ih (f a b)
    rcases List.mem_cons.mp hmem with hh | hh
    · rw [hh]
      rcases hf a b with he | he <;> rw [he] <;> simp
    · simp [hh]

theorem pickBody_mem {fs : List ℚ} (hne : fs ≠ []) : pickBody fs ∈ fs := by
  unfold pickBody
  cases hd : fs.dedup with
  | nil => exact absurd ((List.dedup_eq_nil fs).mp hd) hne
  | cons h t =>
    have hch := foldl_choice
      (fun b s => if fs.count b < fs.count s ∨ (fs.count b = fs.count s ∧ b < s) then s else b)
      (fun a b => by
        dsimp only
        split_ifs with hc
        · exact Or.inr rfl
        · exact Or.inl rfl) t h
    have hsub : t.foldl
        (fun b s => if fs.count b < fs.count s ∨ (fs.count b = fs.count s ∧ b < s) then s else b)
        h ∈ fs.dedup := by
      rw [hd]
      exact hch
    exact List.mem_dedup.mp hsub

theorem length_le_one_of_all_eq {l : List ℚ} (hnd : l.Nodup) (r : ℚ)
    (hall : ∀ x ∈ l, x = r) : l.length ≤ 1 := by
  match l with
  | [] => simp
  | [a] => simp
  | a :: b :: t =>
    exfalso
    have ha := hall a (by simp)
    have hb := hall b (by simp)
    rw [List.nodup_cons] at hnd
    exact hnd.1 (by rw [ha, ← hb]; simp)

/-- When all rounded sizes are one value `r`, the analyzer falls back to the
ratio thresholds on body size `r`. -/
theorem analyze_single_size {doc : Doc} {r : ℚ} (hne : fontSizes doc ≠ [])
    (hall : ∀ s ∈ fontSizes doc, s = r) :
    analyzeFontSizes doc = some ⟨r, r * 135 / 100, r * 125 / 100, r * 115 / 100⟩ := by
  have hbody : pickBody (fontSizes doc) = r := hall _ (pickBody_mem hne)
  have hdl : (fontSizes doc).dedup.length ≤ 1 :=
    length_le_one_of_all_eq (List.nodup_dedup _) r (fun x hx => hall x (List.mem_dedup.mp hx))
  have hu : (uniqueSizes doc).length ≤ 1 := by
    unfold uniqueSizes
    rw [(List.perm_insertionSort _ _).length_eq]
    exact hdl
  unfold analyzeFontSizes
  rw [if_neg (by simpa using hne), if_neg (by omega), hbody]

theorem lt_of_round1_eq {s r : ℚ} (h : round1 s = r) : s < r + 1/20 := by
  unfold round1 at h
  rw [pyRoundZ_eq] at h
  rw [div_eq_iff (by norm_num : (10 : ℚ) ≠ 0)] at h
  have hz2 : s * 10 + 1/2 < (⌊s * 10 + 1/2⌋ : ℚ) + 1 := Int.lt_floor_add_one _
  rw [h] at hz2
  linarith

theorem sum_lt_length_mul {l : List ℚ} (b : ℚ) (hne : l ≠ []) (hlt : ∀ x ∈ l, x < b) :
    l.sum < (l.length : ℚ) * b := by
  induction l with
  | nil => exact absurd rfl hne
  | cons a t ih =>
    cases t with
    | nil =>
      have := hlt a (by simp)
      simpa using this
    | cons c t2 =>
      have h1 := hlt a (by simp)
      have h2 := ih (by simp) (fun x hx => hlt x (by simp [hx]))
      simp only [List.sum_cons, List.length_cons] at h2 ⊢
      push_cast
      push_cast at h2
      nlinarith [h2, h1]

theorem avg_lt {l : List ℚ} (b : ℚ) (hne : l ≠ []) (hlt : ∀ x ∈ l, x < b) :
    l.sum / (l.length : ℚ) < b := by
  have hlen : (0 : ℚ) < l.length := by
    have hp : 0 < l.length := List.length_pos.mpr hne
    exact_mod_cast hp
  rw [div_lt_iff hlen]
  calc l.sum < (l.length : ℚ) * b := sum_lt_length_mul b hne hlt
  _ = b * l.length := by ring

theorem span_mem_spansOf {doc : Doc} {p : Page} {line : Line} {sp : Span}
    (hp : p ∈ doc) (hl : line ∈ linesOfPage p) (hs : sp ∈ line.spans) :
    sp ∈ spansOf doc := by
  unfold spansOf
  rw [mem_concatMap]
  refine ⟨p, hp, ?_⟩
  rw [mem_concatMap]
  unfold linesOfPage at hl
  rw [mem_concatMap] at hl
  obtain ⟨b, hb, hlb⟩ := hl
  refine ⟨b, hb, ?_⟩
  rw [mem_concatMap]
  exact ⟨line, by simpa using hlb, hs⟩

theorem round1_mem_fontSizes {doc : Doc} {sp : Span} (hsp : sp ∈ spansOf doc)
    (hlive : ¬(stripWS sp.text = [])) : round1 sp.size ∈ fontSizes doc := by
  unfold fontSizes
  rw [List.mem_map]
  exact ⟨sp, List.mem_filter.mpr ⟨hsp, by simpa using hlive⟩, rfl⟩

theorem detect_of_classify_small {t : List Char} {s : ℚ} {tr : Thresholds} {lvl : HLevel}
    (hcl : classifyHeadingLevel t s (some tr) = some lvl)
    (h1 : s < tr.H1) (h2 : s < tr.H2) (h3 : s < tr.H3) :
    detectHeadingLevelByNumber t = some lvl := by
  cases hd : detectHeadingLevelByNumber t with
  | some l =>
    have hsome : classifyHeadingLevel t s (some tr) = some l := by
      unfold classifyHeadingLevel
      rw [hd]
    rw [hsome] at hcl
    injection hcl with he
    rw [he]
  | none =>
    have hnone : classifyHeadingLevel t s (some tr) = none := by
      unfold classifyHeadingLevel
      rw [hd]
      rw [if_neg (show ¬(s ≥ thH1 (some tr)) from not_le.mpr h1)]
      rw [if_neg (show ¬(s ≥ thH2 (some tr)) from not_le.mpr h2)]
      rw [if_neg (show ¬(s ≥ thH3 (some tr)) from not_le.mpr h3)]
    rw [hnone] at hcl
    exact absurd hcl (by simp)

/-- C5 amended: in a document where every non-whitespace span has the same
rounded font size r (with r at least 1 point) the outline need not be empty,
but every heading in it owes its level to a numbered prefix: the
numbered-prefix detector returns exactly the emitted level on the trimmed
heading text. Boldness cannot change this, since levels never come from the
size thresholds in such a document. -/
theorem c5_amended (doc : Doc) (r : ℚ)
    (hne : fontSizes doc ≠ [])
    (hall : ∀ s ∈ fontSizes doc, s = r)
    (hr : 1 ≤ r)
    (hnobold : ∀ sp ∈ spansOf doc, stripWS sp.text ≠ [] → isBold sp = false) :
    ∀ h ∈ (extractOutlineFromPdf (Except.ok doc)).outline,
      detectHeadingLevelByNumber (stripWS h.text) = some h.level := by
  intro h hmem
  by_cases hz : doc.length = 0
  · rw [show (extractOutlineFromPdf (Except.ok doc)).outline = [] from by
      simp only [extractOutlineFromPdf]
      rw [if_pos hz]] at hmem
    exact absurd hmem (by simp)
  · have houtline : (extractOutlineFromPdf (Except.ok doc)).outline
        = extractHeadingsFromDocument doc (extractTitleFromDocument doc)
            (analyzeFontSizes doc) := by
      simp only [extractOutlineFromPdf]
      rw [if_neg hz]
    rw [houtline] at hmem
    obtain ⟨i, hi, line, hline, hpage, htext, hcl, hlt, hsz, -, -, -⟩ :=
      extractHeadings_mem hmem
    have hth : analyzeFontSizes doc = some ⟨r, r * 135 / 100, r * 125 / 100, r * 115 / 100⟩ :=
      analyze_single_size hne hall
    rw [hth] at hcl
    have hsizes : ∀ x ∈ sizesOf line, x < r + 1/20 := by
      intro x hx
      unfold sizesOf at hx
      rw [List.mem_map] at hx
      obtain ⟨sp, hsp, rfl⟩ := hx
      unfold liveSpans at hsp
      rw [List.mem_filter] at hsp
      have hspdoc : sp ∈ spansOf doc :=
        span_mem_spansOf (List.get_mem doc i hi) hline hsp.1
      have hlive : ¬(stripWS sp.text = []) := by simpa using hsp.2
      have hround : round1 sp.size = r := hall _ (round1_mem_fontSizes hspdoc hlive)
      exact lt_of_round1_eq hround
    have havg : avgOf line < r + 1/20 := by
      unfold avgOf
      exact avg_lt _ hsz hsizes
    have hbound : r + 1/20 ≤ r * 115 / 100 := by linarith
    have hdet := detect_of_classify_small hcl
      (by show avgOf line < r * 135 / 100; linarith)
      (by show avgOf line < r * 125 / 100; linarith)
      (by show avgOf line < r * 115 / 100; linarith)
    rw [htext, stripWS_cleanText_space]
    exact hdet

def c5Title : List Char := "Some Document About Things".toList
def c5HeadText : List Char := "1. Introduction".toList
def c5Font : List Char := "Helvetica".toList
def c5TitleLine : Line := ⟨[⟨c5Title, c5Font, 0, 12, 0⟩]⟩
def c5HeadLine : Line := ⟨[⟨c5HeadText, c5Font, 0, 12, 0⟩]⟩
def c5Doc : Doc := [[[c5TitleLine, c5HeadLine]]]
def c5CandT : TitleCand := ⟨c5Title, 12, 1, 26⟩
def c5CandH : TitleCand := ⟨c5HeadText, 12, 1, 15⟩

theorem c5_fs : fontSizes c5Doc = [12, 12] := by
  unfold fontSizes
  rw [show (spansOf c5Doc).filter (fun sp => ¬(stripWS sp.text = []))
      = [⟨c5Title, c5Font, 0, 12, 0⟩, ⟨c5HeadText, c5Font, 0, 12, 0⟩] from by decide]
  norm_num [round1, pyRoundZ_eq]

theorem c5_avgT : avgOf c5TitleLine = 12 := by
  have hsz : sizesOf c5TitleLine = [12] := by decide
  unfold avgOf
  rw [hsz]
  norm_num

theorem c5_avgH : avgOf c5HeadLine = 12 := by
  have hsz : sizesOf c5HeadLine = [12] := by decide
  unfold avgOf
  rw [hsz]
  norm_num

theorem c5_title_eval : extractTitleFromDocument c5Doc = c5Title := by
  have hcT : lineCandidate 1 c5TitleLine = some c5CandT := by
    rw [lineCandidate_emits (by decide) (by decide) (by decide) (by decide) (by decide)
      (by rw [c5_avgT]; norm_num) (by decide)]
    rw [show cleanText (rawOf c5TitleLine) = c5Title from by decide, c5_avgT]
    decide
  have hcH : lineCandidate 1 c5HeadLine = some c5CandH := by
    rw [lineCandidate_emits (by decide) (by decide) (by decide) (by decide) (by decide)
      (by rw [c5_avgH]; norm_num) (by decide)]
    rw [show cleanText (rawOf c5HeadLine) = c5HeadText from by decide, c5_avgH]
    decide
  have hcands : titleCandidates c5Doc = [c5CandT, c5CandH] := by
    unfold titleCandidates
    rw [show c5Doc.take 3 = c5Doc from by decide]
    simp only [c5Doc, titleCandsFrom, concatMap, List.filterMap_cons, hcT, hcH,
      List.filterMap_nil, List.append_nil]
  unfold extractTitleFromDocument
  simp only [hcands, List.foldl_cons, List.foldl_nil]
  rw [show betterCand c5CandT c5CandH = c5CandT from by
    unfold betterCand
    rw [if_neg (by norm_num [c5CandT, c5CandH])]]
  rfl

theorem c5_outline_eval :
    (extractOutlineFromPdf (Except.ok c5Doc)).outline
      = [⟨HLevel.H1, "1. Introduction ".toList, 0⟩] := by
  have houtline : (extractOutlineFromPdf (Except.ok c5Doc)).outline
      = extractHeadingsFromDocument c5Doc (extractTitleFromDocument c5Doc)
          (analyzeFontSizes c5Doc) := by
    simp only [extractOutlineFromPdf]
    rw [if_neg (by decide)]
  rw [houtline, c5_title_eval]
  have hskipT : ∀ th, processLine c5Title th 1 c5TitleLine ([], []) = ([], []) :=
    fun th => processLine_skip_title (by decide)
  have hemit : ∀ th, processLine c5Title th 1 c5HeadLine ([], [])
      = ([⟨HLevel.H1, cleanText (rawOf c5HeadLine) ++ [' '], 0⟩],
         [headingKey (cleanText (rawOf c5HeadLine))]) :=
    fun th => processLine_emits (by decide) (by decide) (by decide) (by decide) (by decide)
      (headingCandidateTest_of_wc (thBody th) (by decide) (by decide)
        (by decide) (by decide))
      (by decide) (by decide)
      (classify_of_detect (avgOf c5HeadLine) th (by decide))
  simp only [extractHeadingsFromDocument, c5Doc, extractFrom, processPage, processBlock,
    List.foldl_cons, List.foldl_nil]
  rw [hskipT, hemit]
  decide

/-- C5 counterexample: a document whose non-whitespace spans all share the one
rounded size 12 and contain no bold span still yields a non-empty outline —
the word-count shape fallback plus the numbered-prefix rule emit a heading. -/
theorem c5_counterexample :
    (fontSizes c5Doc).dedup = [12] ∧
    (spansOf c5Doc).all (fun sp => !isBold sp) = true ∧
    (extractOutlineFromPdf (Except.ok c5Doc)).outline
      = [⟨HLevel.H1, "1. Introduction ".toList, 0⟩] := by
  refine ⟨?_, by decide, c5_outline_eval⟩
  rw [c5_fs]
  simp

/-- Witness for the amended C5 at the concrete single-size document. -/
theorem c5_amended_witness :
    detectHeadingLevelByNumber (stripWS ("1. Introduction ".toList)) = some HLevel.H1 :=
  c5_amended c5Doc 12
    (by rw [c5_fs]; simp)
    (by
      rw [c5_fs]
      intro s hs
      rcases (by simpa using hs : s = 12 ∨ s = 12) with h | h <;> exact h)
    (by norm_num)
    (by decide)
    ⟨HLevel.H1, "1. Introduction ".toList, 0⟩
    (by rw [c5_outline_eval]; simp)

/-! ## C6: the font statistics analyzer -/

/-- The (count, value) lexicographic preorder used by the body-font choice. -/
def LexCS (fs : List ℚ) (a b : ℚ) : Prop :=
  fs.count a < fs.count b ∨ (fs.count a = fs.count b ∧ a ≤ b)

theorem lexCS_refl (fs : List ℚ) (a : ℚ) : LexCS fs a a := Or.inr ⟨rfl, le_refl a⟩

theorem lexCS_trans {fs : List ℚ} {a b c : ℚ} (h1 : LexCS fs a b) (h2 : LexCS fs b c) :
    LexCS fs a c := by
  rcases h1 with h1 | ⟨e1, l1⟩ <;> rcases h2 with h2 | ⟨e2, l2⟩
  · exact Or.inl (lt_trans h1 h2)
  · exact Or.inl (by omega)
  · exact Or.inl (by omega)
  · exact Or.inr ⟨by omega, le_trans l1 l2⟩

theorem pickBody_step (fs : List ℚ) (b s : ℚ) :
    LexCS fs b (if fs.count b < fs.count s ∨ (fs.count b = fs.count s ∧ b < s) then s else b) ∧
    LexCS fs s (if fs.count b < fs.count s ∨ (fs.count b = fs.count s ∧ b < s) then s else b) := by
  split_ifs with hc
  · refine ⟨?_, lexCS_refl fs s⟩
    rcases hc with hc | ⟨e, l⟩
    · exact Or.inl hc
    · exact Or.inr ⟨e, le_of_lt l⟩
  · push_neg at hc
    refine ⟨lexCS_refl fs b, ?_⟩
    rcases lt_or_eq_of_le hc.1 with hlt | heq
    · exact Or.inl hlt
    · exact Or.inr ⟨heq, hc.2 heq.symm⟩

theorem pickBody_fold (fs : List ℚ) :
    ∀ (l : List ℚ) (b : ℚ),
      LexCS fs b (l.foldl
        (fun b s => if fs.count b < fs.count s ∨ (fs.count b = fs.count s ∧ b < s) then s else b)
        b) ∧
      ∀ s ∈ l, LexCS fs s (l.foldl
        (fun b s => if fs.count b < fs.count s ∨ (fs.count b = fs.count s ∧ b < s) then s else b)
        b) := by
  intro l
  induction l with
  | nil => intro b; exact ⟨lexCS_refl fs b, by simp⟩
  | cons s t ih =>
    intro b
    obtain ⟨ih1, ih2⟩ := ih
      (if fs.count b < fs.count s ∨ (fs.count b = fs.count s ∧ b < s) then s else b)
    obtain ⟨hb, hs⟩ := pickBody_step fs b s
    refine ⟨lexCS_trans hb ih1, ?_⟩
    intro x hx
    rcases List.mem_cons.mp hx with rfl | hx
    · exact lexCS_trans hs ih1
    · exact ih2 x hx

theorem pickBody_max {fs : List ℚ} (hne : fs ≠ []) :
    ∀ s ∈ fs, LexCS fs s (pickBody fs) := by
  intro s hs
  unfold pickBody
  cases hd : fs.dedup with
  | nil => exact absurd ((List.dedup_eq_nil fs).mp hd) hne
  | cons h t =>
    have hsd : s ∈ fs.dedup := List.mem_dedup.mpr hs
    rw [hd] at hsd
    obtain ⟨hfold1, hfold2⟩ := pickBody_fold fs t h
    rcases List.mem_cons.mp hsd with rfl | hsd
    · exact hfold1
    · exact hfold2 s hsd

theorem exists_three_cons {α : Type} {l : List α} (h : 3 ≤ l.length) :
    ∃ a b c rest, l = a :: b :: c :: rest := by
  cases l with
  | nil => simp at h
  | cons a l1 =>
    cases l1 with
    | nil => simp at h
    | cons b l2 =>
      cases l2 with
      | nil => simp at h
      | cons c rest => exact ⟨a, b, c, rest, rfl⟩

/-- C6: the analyzer returns the empty mapping on no sizes; otherwise body is
the most frequent rounded size with ties towards the larger size; with at
least 4 distinct sizes H1 > H2 > H3 are the three largest distinct sizes in
descending order, and otherwise the ratio fallback thresholds are used. -/
theorem c6_font_analyzer (doc : Doc) :
    (fontSizes doc = [] → analyzeFontSizes doc = none) ∧
    (fontSizes doc ≠ [] → ∃ t, analyzeFontSizes doc = some t ∧
      t.body ∈ fontSizes doc ∧
      (∀ s ∈ fontSizes doc, (fontSizes doc).count s ≤ (fontSizes doc).count t.body) ∧
      (∀ s ∈ fontSizes doc,
        (fontSizes doc).count s = (fontSizes doc).count t.body → s ≤ t.body) ∧
      (4 ≤ (fontSizes doc).dedup.length →
        t.H1 ∈ fontSizes doc ∧ t.H2 ∈ fontSizes doc ∧ t.H3 ∈ fontSizes doc ∧
        t.H2 < t.H1 ∧ t.H3 < t.H2 ∧
        (∀ s ∈ fontSizes doc, s ≤ t.H1) ∧
        (∀ s ∈ fontSizes doc, s ≠ t.H1 → s ≤ t.H2) ∧
        (∀ s ∈ fontSizes doc, s ≠ t.H1 → s ≠ t.H2 → s ≤ t.H3)) ∧
      ((fontSizes doc).dedup.length < 4 →
        t.H3 = t.body * 115 / 100 ∧ t.H2 = t.body * 125 / 100 ∧
        t.H1 = t.body * 135 / 100)) := by
  constructor
  · intro h
    unfold analyzeFontSizes
    rw [if_pos h]
  · intro hne
    have hbodymem : pickBody (fontSizes doc) ∈ fontSizes doc := pickBody_mem hne
    have hbodymax := pickBody_max hne
    have hulen : (uniqueSizes doc).length = (fontSizes doc).dedup.length :=
      (List.perm_insertionSort _ _).length_eq
    have hcount : ∀ s ∈ fontSizes doc,
        (fontSizes doc).count s ≤ (fontSizes doc).count (pickBody (fontSizes doc)) := by
      intro s hs
      rcases hbodymax s hs with h | ⟨e, -⟩
      · exact le_of_lt h
      · exact le_of_eq e
    have hties : ∀ s ∈ fontSizes doc,
        (fontSizes doc).count s = (fontSizes doc).count (pickBody (fontSizes doc)) →
          s ≤ pickBody (fontSizes doc) := by
      intro s hs he
      rcases hbodymax s hs with h | ⟨-, l⟩
      · omega
      · exact l
    by_cases h4 : 4 ≤ (uniqueSizes doc).length
    · haveI : IsTotal ℚ (fun a b : ℚ => b ≤ a) := ⟨fun a b => le_total b a⟩
      haveI : IsTrans ℚ (fun a b : ℚ => b ≤ a) := ⟨fun a b c hab hbc => le_trans hbc hab⟩
      have hsorted : (uniqueSizes doc).Sorted (fun a b : ℚ => b ≤ a) :=
        List.sorted_insertionSort _ _
      have hnodup : (uniqueSizes doc).Nodup :=
        ((List.perm_insertionSort _ _).nodup_iff).mpr (List.nodup_dedup _)
      have hmemu : ∀ x, x ∈ uniqueSizes doc ↔ x ∈ fontSizes doc := by
        intro x
        unfold uniqueSizes
        rw [(List.perm_insertionSort _ _).mem_iff]
        exact List.mem_dedup
      obtain ⟨a, b, c, rest, hu⟩ := exists_three_cons (l := uniqueSizes doc) (by omega)
      have hlen : 4 ≤ (uniqueSizes doc).length := h4
      refine ⟨⟨pickBody (fontSizes doc), a, b, c⟩, ?_, hbodymem, hcount, hties, ?_, ?_⟩
      · unfold analyzeFontSizes
        rw [if_neg (by simpa using hne), if_pos h4]
        have hm1 : min 1 ((uniqueSizes doc).length - 1) = 1 := by omega
        have hm2 : min 2 ((uniqueSizes doc).length - 1) = 2 := by omega
        rw [hm1, hm2, hu]
        rfl
      · intro hdummy
        rw [hu] at hsorted hnodup
        have hab : b ≤ a := (List.pairwise_cons.mp hsorted).1 b (by simp)
        have hac : c ≤ a := (List.pairwise_cons.mp hsorted).1 c (by simp)
        have hsorted2 := (List.pairwise_cons.mp hsorted).2
        have hbc : c ≤ b := (List.pairwise_cons.mp hsorted2).1 c (by simp)
        have hne_ab : a ≠ b := by
          intro he
          rw [List.nodup_cons] at hnodup
          exact hnodup.1 (by rw [he]; simp)
        have hne_bc : b ≠ c := by
          intro he
          rw [List.nodup_cons] at hnodup
          rw [List.nodup_cons] at hnodup
          exact hnodup.2.1 (by rw [he]; simp)
        have hmema : a ∈ fontSizes doc := (hmemu a).mp (by rw [hu]; simp)
        have hmemb : b ∈ fontSizes doc := (hmemu b).mp (by rw [hu]; simp)
        have hmemc : c ∈ fontSizes doc := (hmemu c).mp (by rw [hu]; simp)
        refine ⟨hmema, hmemb, hmemc, lt_of_le_of_ne hab (Ne.symm hne_ab),
          lt_of_le_of_ne hbc (Ne.symm hne_bc), ?_, ?_, ?_⟩
        · intro s hs
          have hsu : s ∈ uniqueSizes doc := (hmemu s).mpr hs
          rw [hu] at hsu
          rcases List.mem_cons.mp hsu with rfl | hsu
          · exact le_refl s
          · exact (List.pairwise_cons.mp hsorted).1 s hsu
        · intro s hs hsa
          have hsu : s ∈ uniqueSizes doc := (hmemu s).mpr hs
          rw [hu] at hsu
          rcases List.mem_cons.mp hsu with rfl | hsu
          · exact absurd rfl hsa
          rcases List.mem_cons.mp hsu with rfl | hsu
          · exact le_refl s
          · exact (List.pairwise_cons.mp hsorted2).1 s hsu
        · intro s hs hsa hsb
          have hsu : s ∈ uniqueSizes doc := (hmemu s).mpr hs
          rw [hu] at hsu
          rcases List.mem_cons.mp hsu with rfl | hsu
          · exact absurd rfl hsa
          rcases List.mem_cons.mp hsu with rfl | hsu
          · exact absurd rfl hsb
          have hsorted3 := (List.pairwise_cons.mp hsorted2).2
          rcases List.mem_cons.mp hsu with rfl | hsu
          · exact le_refl s
          · exact (List.pairwise_cons.mp hsorted3).1 s hsu
      · intro hlt
        omega
    · refine ⟨⟨pickBody (fontSizes doc),
        pickBody (fontSizes doc) * 135 / 100,
        pickBody (fontSizes doc) * 125 / 100,
        pickBody (fontSizes doc) * 115 / 100⟩, ?_, hbodymem, hcount, hties, ?_, ?_⟩
      · unfold analyzeFontSizes
        rw [if_neg (by simpa using hne), if_neg h4]
      · intro h4d
        omega
      · intro hdummy
        exact ⟨rfl, rfl, rfl⟩

def c6Font : List Char := "F".toList
def c6Line : Line :=
  ⟨[⟨"a".toList, c6Font, 0, 12, 0⟩, ⟨"b".toList, c6Font, 0, 12, 0⟩,
    ⟨"c".toList, c6Font, 0, 12, 0⟩, ⟨"d".toList, c6Font, 0, 14, 0⟩,
    ⟨"e".toList, c6Font, 0, 14, 0⟩, ⟨"f".toList, c6Font, 0, 18, 0⟩]⟩
def c6Doc : Doc := [[[c6Line]]]

theorem c6_fs : fontSizes c6Doc = [12, 12, 12, 14, 14, 18] := by
  unfold fontSizes
  rw [show (spansOf c6Doc).filter (fun sp => ¬(stripWS sp.text = [])) = c6Line.spans from
    by decide]
  show List.map (fun sp => round1 sp.size) c6Line.spans = _
  norm_num [c6Line, round1, pyRoundZ_eq]

/-- Witness for C6 at the concrete size multiset [12,12,12,14,14,18]. -/
theorem c6_font_analyzer_witness :
    ∃ t, analyzeFontSizes c6Doc = some t ∧
      t.body ∈ fontSizes c6Doc ∧
      (∀ s ∈ fontSizes c6Doc, (fontSizes c6Doc).count s ≤ (fontSizes c6Doc).count t.body) ∧
      (∀ s ∈ fontSizes c6Doc,
        (fontSizes c6Doc).count s = (fontSizes c6Doc).count t.body → s ≤ t.body) ∧
      (4 ≤ (fontSizes c6Doc).dedup.length →
        t.H1 ∈ fontSizes c6Doc ∧ t.H2 ∈ fontSizes c6Doc ∧ t.H3 ∈ fontSizes c6Doc ∧
        t.H2 < t.H1 ∧ t.H3 < t.H2 ∧
        (∀ s ∈ fontSizes c6Doc, s ≤ t.H1) ∧
        (∀ s ∈ fontSizes c6Doc, s ≠ t.H1 → s ≤ t.H2) ∧
        (∀ s ∈ fontSizes c6Doc, s ≠ t.H1 → s ≠ t.H2 → s ≤ t.H3)) ∧
      ((fontSizes c6Doc).dedup.length < 4 →
        t.H3 = t.body * 115 / 100 ∧ t.H2 = t.body * 125 / 100 ∧
        t.H1 = t.body * 135 / 100) :=
  (c6_font_analyzer c6Doc).2 (by rw [c6_fs]; simp)

/-! ## C7: the title extractor -/

/-- The (size, page) preference order of the title selection. -/
def LexT (x r : TitleCand) : Prop :=
  x.size < r.size ∨ (x.size = r.size ∧ r.page ≤ x.page)

theorem lexT_refl (x : TitleCand) : LexT x x := Or.inr ⟨rfl, le_refl _⟩

theorem lexT_trans {x y z : TitleCand} (h1 : LexT x y) (h2 : LexT y z) : LexT x z := by
  rcases h1 with h1 | ⟨e1, p1⟩ <;> rcases h2 with h2 | ⟨e2, p2⟩
  · exact Or.inl (lt_trans h1 h2)
  · exact Or.inl (by rw [← e2]; exact h1)
  · exact Or.inl (by rw [e1]; exact h2)
  · exact Or.inr ⟨by rw [e1, e2], le_trans p2 p1⟩

theorem betterCand_step (b c : TitleCand) :
    LexT b (betterCand b c) ∧ LexT c (betterCand b c) := by
  unfold betterCand
  split_ifs with hc0
  · rcases hc0 with h | ⟨e, p⟩
    · exact ⟨Or.inl h, lexT_refl c⟩
    · exact ⟨Or.inr ⟨e, le_of_lt p⟩, lexT_refl c⟩
  · push_neg at hc0
    refine ⟨lexT_refl b, ?_⟩
    rcases lt_or_eq_of_le hc0.1 with hlt | heq
    · exact Or.inl hlt
    · exact Or.inr ⟨heq, hc0.2 heq.symm⟩

theorem betterCand_fold :
    ∀ (l : List TitleCand) (b : TitleCand),
      LexT b (l.foldl betterCand b) ∧ ∀ c ∈ l, LexT c (l.foldl betterCand b) := by
  intro l
  induction l with
  | nil => intro b; exact ⟨lexT_refl b, by simp⟩
  | cons s t ih =>
    intro b
    obtain ⟨ih1, ih2⟩ := ih (betterCand b s)
    obtain ⟨hb, hs⟩ := betterCand_step b s
    refine ⟨lexT_trans hb ih1, ?_⟩
    intro x hx
    rcases List.mem_cons.mp hx with rfl | hx
    · exact lexT_trans hs ih1
    · exact ih2 x hx

/-- C7: candidate acceptance is exactly the length/size/page-token test; the
candidate records the cleaned text, mean size and 1-based page; only the first
3 pages are scanned; the result is "Untitled" exactly when no line qualifies,
and otherwise the text of a candidate with maximal mean size, ties broken by
the smallest page number. -/
theorem c7_title_extractor (doc : Doc) :
    (titleCandidates doc = titleCandsFrom 1 (doc.take 3)) ∧
    (∀ (pn : Nat) (line : Line),
      (∃ c, lineCandidate pn line = some c) ↔
        (line.spans ≠ [] ∧ cleanText (rawOf line) ≠ [] ∧ sizesOf line ≠ [] ∧
         10 < (cleanText (rawOf line)).length ∧ (cleanText (rawOf line)).length < 150 ∧
         10 < avgOf line ∧ startsL pageTok (lowerStr (cleanText (rawOf line))) = false)) ∧
    (∀ (pn : Nat) (line : Line) (c : TitleCand), lineCandidate pn line = some c →
      c.text = cleanText (rawOf line) ∧ c.size = avgOf line ∧ c.page = pn) ∧
    ((titleCandidates doc = []) ↔ extractTitleFromDocument doc = untitledTok) ∧
    (titleCandidates doc ≠ [] →
      ∃ c, c ∈ titleCandidates doc ∧ extractTitleFromDocument doc = c.text ∧
        ∀ c2 ∈ titleCandidates doc,
          c2.size ≤ c.size ∧ (c2.size = c.size → c.page ≤ c2.page)) := by
  refine ⟨rfl, ?_, ?_, ?_, ?_⟩
  · intro pn line
    constructor
    · rintro ⟨c, hc⟩
      unfold lineCandidate at hc
      split_ifs at hc with h1 h2 h3
      all_goals first
        | exact Option.noConfusion hc
        | (push_neg at h2
           obtain ⟨ha, hb, hcc, hd⟩ := h3
           refine ⟨h1, h2.1, h2.2, ha, hb, hcc, ?_⟩
           rcases hs : startsL pageTok (lowerStr (cleanText (rawOf line))) with _ | _
           · rfl
           · exact absurd hs hd)
    · rintro ⟨h1, h2, h3, h4, h5, h6, h7⟩
      exact ⟨_, lineCandidate_emits h1 h2 h3 h4 h5 h6 h7⟩
  · intro pn line c hc
    obtain ⟨ht, hs, hp, -, -, -, -⟩ := lineCandidate_some hc
    exact ⟨ht, hs, hp⟩
  · constructor
    · intro h
      unfold extractTitleFromDocument
      rw [h]
    · intro ht
      cases hc : titleCandidates doc with
      | nil => rfl
      | cons c cs =>
        exfalso
        have hext : extractTitleFromDocument doc = (cs.foldl betterCand c).text := by
          unfold extractTitleFromDocument
          rw [hc]
        have hmem : cs.foldl betterCand c ∈ titleCandidates doc := by
          rw [hc]
          exact foldl_better_mem cs c
        obtain ⟨s, hstext, hlen⟩ := titleCands_text hmem
        rw [ht] at hext
        rw [← hext] at hlen
        exact absurd hlen (by decide)
  · intro hne
    cases hc : titleCandidates doc with
    | nil => exact absurd hc hne
    | cons c cs =>
      refine ⟨cs.foldl betterCand c, foldl_better_mem cs c, by
        unfold extractTitleFromDocument
        rw [hc], ?_⟩
      intro c2 hc2
      obtain ⟨hf1, hf2⟩ := betterCand_fold cs c
      have hlex : LexT c2 (cs.foldl betterCand c) := by
        rcases List.mem_cons.mp hc2 with rfl | hc2
        · exact hf1
        · exact hf2 c2 hc2
      rcases hlex with hlt | ⟨he, hp⟩
      · exact ⟨le_of_lt hlt, fun he2 => absurd he2 (ne_of_lt hlt)⟩
      · exact ⟨le_of_eq he, fun hdummy => hp⟩

theorem c5_cands : titleCandidates c5Doc = [c5CandT, c5CandH] := by
  have hcT : lineCandidate 1 c5TitleLine = some c5CandT := by
    rw [lineCandidate_emits (by decide) (by decide) (by decide) (by decide) (by decide)
      (by rw [c5_avgT]; norm_num) (by decide)]
    rw [show cleanText (rawOf c5TitleLine) = c5Title from by decide, c5_avgT]
    decide
  have hcH : lineCandidate 1 c5HeadLine = some c5CandH := by
    rw [lineCandidate_emits (by decide) (by decide) (by decide) (by decide) (by decide)
      (by rw [c5_avgH]; norm_num) (by decide)]
    rw [show cleanText (rawOf c5HeadLine) = c5HeadText from by decide, c5_avgH]
    decide
  unfold titleCandidates
  rw [show c5Doc.take 3 = c5Doc from by decide]
  simp only [c5Doc, titleCandsFrom, concatMap, List.filterMap_cons, hcT, hcH,
    List.filterMap_nil, List.append_nil]

/-- Witness for C7 at a concrete two-candidate document. -/
theorem c7_title_extractor_witness :
    ∃ c, c ∈ titleCandidates c5Doc ∧ extractTitleFromDocument c5Doc = c.text ∧
      ∀ c2 ∈ titleCandidates c5Doc,
        c2.size ≤ c.size ∧ (c2.size = c.size → c.page ≤ c2.page) :=
  (c7_title_extractor c5Doc).2.2.2.2 (by rw [c5_cands]; simp)
